import Mathlib

/-!
Verification of the wildcard-import expansion transform (`src/lib.rs` of
swc-plugin-glob-import).  The transform and its helpers are shallowly
embedded below: strings are `List Char`, the filesystem glob matcher is a
parameter of the context (`Ctx.fs`), and every `unwrap`/`panic!` in the
source becomes an `Except TransformError` error value.
-/


namespace GlobImport

/-- Strings of the embedded program are lists of unicode scalar values,
mirroring Rust `str` iterated by `chars()`. -/
abbrev Chars := List Char

/-- Import specifier shapes of the module AST
(`swc_core::ecma::ast::ImportSpecifier`): a default binding, a named
binding, or a star-namespace binding.  Only the name payload is kept. -/
inductive ImportSpecifier where
  | defaultSpec (localName : Chars)
  | namedSpec (localName : Chars)
  | namespaceSpec (localName : Chars)
deriving DecidableEq

/-- An import declaration: its specifier list and its source string
(`decl.src.value`). -/
structure ImportDecl where
  specifiers : List ImportSpecifier
  src : Chars
deriving DecidableEq

/-- Top-level module items, restricted to the shapes the transform reads or
writes: import declarations, the generated `const <name> = { k: v, ... }`
declaration (an object literal of identifier references), and an opaque
catch-all for every other statement which the fold clones unchanged. -/
inductive ModuleItem where
  | importDecl (d : ImportDecl)
  | constObjDecl (name : Chars) (props : List (Chars × Chars))
  | otherStmt (tag : Nat)
deriving DecidableEq

/-- A module is its ordered list of top-level items. -/
structure Module where
  body : List ModuleItem
deriving DecidableEq

/-- One expansion entry, mirroring `struct WildcardImport` of the source:
the synthetic binding identifier, the sanitized object key, and the
relative import source string. -/
structure WildcardImport where
  ident_import : Chars
  ident_obj : Chars
  import_src : Chars
deriving DecidableEq

/-- The panics of the source, made explicit: `panic!("TODO2")` (first
specifier is not a default specifier), `panic!("TODO3")` (no specifier),
the `unwrap` on `re.captures`, and the `unwrap` on `strip_prefix`. -/
inductive TransformError where
  | unsupportedSpecifier
  | noSpecifier
  | captureFailed
  | stripPrefixFailed
deriving DecidableEq

/-- The environment of one transform invocation: the host working
directory `cwd`, the current `file_name`, and the filesystem glob matcher
`fs`, which maps a resolved pattern string to the ordered list of matched
paths (the external `glob::glob` enumeration). -/
structure Ctx where
  cwd : Chars
  fileName : Chars
  fs : Chars → List Chars

/-! ### Identifier sanitizer (`create_valid_property_name`) -/

/-- Step 1 of the sanitizer: `ident.replace('-', "_")`. -/
def mapDash (l : Chars) : Chars :=
  l.map (fun c => if c = '-' then '_' else c)

/-- Membership in the character class `[a-zA-Z0-9_]` of the sanitizer's
first regex. -/
def isWordChar (c : Char) : Bool :=
  c.isAlphanum || c == '_'

/-- Step 2 of the sanitizer: `Regex::new(r"[^a-zA-Z0-9_]+").replace_all(_, "")`
deletes every character outside the class. -/
def removeNonWord (l : Chars) : Chars :=
  l.filter isWordChar

/-- Step 3 of the sanitizer: `.trim_matches('_')` removes every leading and
trailing underscore. -/
def trimUnderscores (l : Chars) : Chars :=
  ((l.dropWhile (fun c => c == '_')).reverse.dropWhile (fun c => c == '_')).reverse

/-- Step 4 of the sanitizer: `Regex::new(r"_+").replace_all(_, "_")`
collapses each maximal run of underscores into a single one. -/
def collapseUnderscores : Chars → Chars
  | [] => []
  | [c] => [c]
  | a :: b :: rest =>
    if a = '_' ∧ b = '_' then collapseUnderscores (b :: rest)
    else a :: collapseUnderscores (b :: rest)

/-- Model of `GlobImporter::create_valid_property_name`, in the order the source
applies the steps: replace dashes, delete non-word characters, trim
boundary underscores, collapse underscore runs. -/
def create_valid_property_name (l : Chars) : Chars :=
  collapseUnderscores (trimUnderscores (removeNonWord (mapDash l)))

/-! ### Synthetic identifiers (`next_variable_id`) -/

/-- Decimal rendering of a natural number, the semantics of
`format!("{}", n)`.  Structural in an explicit fuel so that the kernel can
evaluate it. -/
def toDecAux : Nat → Nat → Chars
  | 0, _ => []
  | fuel + 1, n =>
    if n < 10 then [Nat.digitChar n]
    else toDecAux fuel (n / 10) ++ [Nat.digitChar (n % 10)]

/-- Decimal rendering of `n` (fuel `n + 1` always suffices). -/
def natToDecimal (n : Nat) : Chars :=
  toDecAux (n + 1) n

/-- The synthetic identifier `format!("$_import_{}", n)`. -/
def identChars (n : Nat) : Chars :=
  ("$_import_".data) ++ natToDecimal n

/-- Model of `GlobImporter::next_variable_id`: increment the counter, then render
`$_import_<counter>`.  The mutable `id_counter` field is passed
explicitly. -/
def next_variable_id (c : Nat) : Chars × Nat :=
  (identChars (c + 1), c + 1)

/-! ### Path arithmetic (`std::path`) -/

/-- Model of `PathBuf::push` (hence `Path::join`): an absolute right operand
replaces the buffer; otherwise the operand is appended after a separator,
no separator being doubled. -/
def joinPath (a b : Chars) : Chars :=
  if b.head? = some '/' then b
  else if a = [] then b
  else if a.getLast? = some '/' then a ++ b
  else a ++ '/' :: b

/-- Model of `PathBuf::pop` / `Path::parent`: drop trailing separators, drop the
final component, drop its separators, keeping the root of an absolute
path. -/
def dropLastComponent (p : Chars) : Chars :=
  let r1 := p.reverse.dropWhile (fun c => c == '/')
  let r2 := r1.dropWhile (fun c => c != '/')
  let r3 := r2.dropWhile (fun c => c == '/')
  if r3 = [] then (if p.head? = some '/' then ['/'] else []) else r3.reverse

/-- Split a path on `/`. -/
def splitOnSlash : Chars → List Chars
  | [] => [[]]
  | c :: rest =>
    if c = '/' then [] :: splitOnSlash rest
    else
      match splitOnSlash rest with
      | [] => [[c]]
      | g :: gs => (c :: g) :: gs

/-- Normalization used by `Path::components`: empty components (doubled or
trailing separators) and interior `.` components disappear. -/
def normComps (l : List Chars) : List Chars :=
  l.filter (fun x => !(x.isEmpty) && x != ['.'])

/-- Model of `Path::components` over the string model: an absolute path contributes
a root marker `['/']`; a relative path keeps a leading `.` component;
everything else is normalized. -/
def pathComponents (p : Chars) : List Chars :=
  if p.head? = some '/' then ['/'] :: normComps (splitOnSlash p)
  else if (splitOnSlash p).head? = some ['.'] then ['.'] :: normComps ((splitOnSlash p).drop 1)
  else normComps (splitOnSlash p)

/-- Reassemble components into a path string. -/
def joinComps : List Chars → Chars
  | [] => []
  | [x] => x
  | x :: y :: rest => (if x = ['/'] then x else x ++ ['/']) ++ joinComps (y :: rest)

/-- Model of `Path::strip_prefix`, component-based: when the base's components are
a prefix of the path's, the remaining components reassembled; otherwise an
error (`None`). -/
def stripPrefixPath (base p : Chars) : Option Chars :=
  let cb := pathComponents base
  let cp := pathComponents p
  if cb.isPrefixOf cp then some (joinComps (cp.drop cb.length)) else none

/-- The branch of `expand_wildcard` building `import_src`: prepend `./`
when the relative path does not already start with `.`
(`relative_path.starts_with('.')`). -/
def normalizeRel (r : Chars) : Chars :=
  if r.head? = some '.' then r else '.' :: '/' :: r

/-- The glob pattern handed to `glob::glob`:
`cwd.join(file_name).with_file_name(decl.src.value)`, where
`with_file_name` pops the final component and pushes the source string. -/
def resolvedPattern (ctx : Ctx) (src : Chars) : Chars :=
  joinPath (dropLastComponent (joinPath ctx.cwd ctx.fileName)) src

/-- The base `xxx = cwd.join(file_name.parent().unwrap())` against which
matched paths are relativized. -/
def importerDir (ctx : Ctx) : Chars :=
  joinPath ctx.cwd (dropLastComponent ctx.fileName)

/-! ### The capture regex (`escape(src).replace(r"\*", "(.*)")`) -/

/-- Split the source string at its first `*`: the regex built by
`expand_wildcard` is the left part literally, a `(.*)` capture group, then
the right part literally (`escape` makes every character literal). -/
def splitStar (src : Chars) : Chars × Chars :=
  (src.takeWhile (fun c => c != '*'), (src.dropWhile (fun c => c != '*')).drop 1)

/-- Greedy semantics of `(.*)B` against `t`: the longest prefix of `t`
free of `'\n'` (regex `.` does not match a newline) that is followed by
the literal `B`; `none` when no such prefix exists. -/
def greedyCap (B : Chars) : Chars → Option Chars
  | [] => if B.isPrefixOf [] then some [] else none
  | c :: t =>
    if c = '\n' then (if B.isPrefixOf (c :: t) then some [] else none)
    else
      match greedyCap B t with
      | some v => some (c :: v)
      | none => if B.isPrefixOf (c :: t) then some [] else none

/-- Attempt a match of `A(.*)B` anchored at the start of `s`. -/
def tryCapture (A B s : Chars) : Option Chars :=
  if A.isPrefixOf s then greedyCap B (s.drop A.length) else none

/-- Model of the `Regex::captures` search semantics for the pattern `A(.*)B`: the
capture of group 1 at the leftmost starting position admitting a match,
`none` when the whole string admits none (the source then panics on
`unwrap`). -/
def findCapture (A B : Chars) : Chars → Option Chars
  | [] => tryCapture A B []
  | c :: s' =>
    match tryCapture A B (c :: s') with
    | some v => some v
    | none => findCapture A B s'

/-! ### Spec model of the glob matcher -/

/-- Modelled from the spec (section 4.2): the external `glob::glob`
matcher's guarantee for a single-wildcard pattern.  A path matches when it
is the pattern's literal prefix, then any run of characters not containing
a path separator in place of the `*`, then the literal suffix. -/
def specGlobMatches (pat path : Chars) : Bool :=
  let P1 := (splitStar pat).1
  let P2 := (splitStar pat).2
  if P1.length + P2.length ≤ path.length then
    (decide (path = P1 ++ ((path.drop P1.length).take (path.length - P1.length - P2.length) ++ P2))) &&
      ((path.drop P1.length).take (path.length - P1.length - P2.length)).all (fun c => c != '/')
  else false

/-! ### The transform -/

/-- Model of `GlobImporter::is_valid_wildcard_import`:
`decl.src.value.matches('*').count() == 1`. -/
def is_valid_wildcard_import (d : ImportDecl) : Bool :=
  d.src.count '*' == 1

/-- The body of `expand_wildcard`'s `.map(...).collect()` over the glob
results: for each matched path, in order, extract the capture, compute the
relative path, allocate the next synthetic identifier and build one
`WildcardImport`; the first failing `unwrap` aborts everything. -/
def expandPaths (A B xxx : Chars) : Nat → List Chars → Except TransformError (List WildcardImport × Nat)
  | c, [] => .ok ([], c)
  | c, p :: rest =>
    match findCapture A B p with
    | none => .error TransformError.captureFailed
    | some frag =>
      match stripPrefixPath xxx p with
      | none => .error TransformError.stripPrefixFailed
      | some rel =>
        match expandPaths A B xxx (next_variable_id c).2 rest with
        | .error e => .error e
        | .ok (tail, c') =>
          .ok ({ ident_import := (next_variable_id c).1,
                 ident_obj := create_valid_property_name frag,
                 import_src := normalizeRel rel } :: tail, c')

/-- Model of `GlobImporter::expand_wildcard`: resolve the pattern against
the importing file, build the capture regex from the source string, run the
matcher, and process each match. -/
def expand_wildcard (ctx : Ctx) (c : Nat) (d : ImportDecl) : Except TransformError (List WildcardImport × Nat) :=
  expandPaths (splitStar d.src).1 (splitStar d.src).2 (importerDir ctx) c
    (ctx.fs (resolvedPattern ctx d.src))

/-- Model of `GlobImporter::split_wildcard_import`: require the first specifier to
be a default specifier (else `TODO2`/`TODO3` panics), expand the wildcard,
emit one default import per entry followed by the aggregating constant
declaration bound to the original default-import name. -/
def split_wildcard_import (ctx : Ctx) (c : Nat) (d : ImportDecl) : Except TransformError (List ModuleItem × Nat) :=
  match d.specifiers.head? with
  | none => .error TransformError.noSpecifier
  | some (ImportSpecifier.namedSpec _) => .error TransformError.unsupportedSpecifier
  | some (ImportSpecifier.namespaceSpec _) => .error TransformError.unsupportedSpecifier
  | some (ImportSpecifier.defaultSpec nm) =>
    match expand_wildcard ctx c d with
    | .error e => .error e
    | .ok (ws, c') =>
      .ok (ws.map (fun w => ModuleItem.importDecl
              { specifiers := [ImportSpecifier.defaultSpec w.ident_import],
                src := w.import_src }) ++
            [ModuleItem.constObjDecl nm (ws.map (fun w => (w.ident_obj, w.ident_import)))], c')

/-- The `flat_map` of `fold_module`, with the mutable counter threaded
left to right: a wildcard import is replaced by its expansion, every other
item is cloned unchanged. -/
def foldItems (ctx : Ctx) : Nat → List ModuleItem → Except TransformError (List ModuleItem × Nat)
  | c, [] => .ok ([], c)
  | c, ModuleItem.importDecl d :: rest =>
    if is_valid_wildcard_import d then
      match split_wildcard_import ctx c d with
      | .error e => .error e
      | .ok (items, c1) =>
        match foldItems ctx c1 rest with
        | .error e => .error e
        | .ok (tail, c2) => .ok (items ++ tail, c2)
    else
      match foldItems ctx c rest with
      | .error e => .error e
      | .ok (tail, c1) => .ok (ModuleItem.importDecl d :: tail, c1)
  | c, item :: rest =>
    match foldItems ctx c rest with
    | .error e => .error e
    | .ok (tail, c1) => .ok (item :: tail, c1)

/-- Model of `Fold::fold_module` as invoked by `process_transform` through
`glob_importer(cwd, file_name)`: the counter starts at `0` for each
invocation. -/
def fold_module (ctx : Ctx) (m : Module) : Except TransformError Module :=
  match foldItems ctx 0 m.body with
  | .error e => .error e
  | .ok (b, _) => .ok { body := b }

/-- The default-import binding names of the generated import statements of
an item list (each generated import carries exactly one default
specifier). -/
def importLocals (items : List ModuleItem) : List Chars :=
  items.filterMap fun item =>
    match item with
    | ModuleItem.importDecl d =>
      match d.specifiers with
      | [ImportSpecifier.defaultSpec nm] => some nm
      | _ => none
    | _ => none

/-- Decimal decoding, a left inverse of `natToDecimal`. -/
def decodeDec (l : Chars) : Nat :=
  l.foldl (fun a c => a * 10 + (c.toNat - 48)) 0


/-- Absence of two consecutive underscores, the invariant established by
the collapsing step. -/
def noDoubleUnderscore : Chars → Bool
  | [] => true
  | [_] => true
  | a :: b :: rest => !(a == '_' && b == '_') && noDoubleUnderscore (b :: rest)


/-- Composition of the fold over an appended statement list, threading the
counter. -/
def seqFold (r1 : Except TransformError (List ModuleItem × Nat))
    (f : Nat → Except TransformError (List ModuleItem × Nat)) :
    Except TransformError (List ModuleItem × Nat) :=
  match r1 with
  | .error e => .error e
  | .ok (a, c1) =>
    match f c1 with
    | .error e => .error e
    | .ok (b, c2) => .ok (a ++ b, c2)


/-- Decidable equality for `Except`, needed to evaluate the transform's
result on concrete inputs. -/
instance exceptDecEq {ε α : Type} [DecidableEq ε] [DecidableEq α] : DecidableEq (Except ε α) := fun x y =>
  match x, y with
  | .error a, .error b =>
    if h : a = b then .isTrue (by rw [h]) else .isFalse (fun hc => h (Except.error.inj hc))
  | .error _, .ok _ => .isFalse (fun hc => Except.noConfusion hc)
  | .ok _, .error _ => .isFalse (fun hc => Except.noConfusion hc)
  | .ok a, .ok b =>
    if h : a = b then .isTrue (by rw [h]) else .isFalse (fun hc => h (Except.ok.inj hc))


/-! ### Concrete fixtures -/

/-- A concrete context: working directory `/cwd`, current file `input.js`,
and a filesystem in which the resolved pattern `/cwd/./*.js` matches the
files `a.js` and `b.js`. -/
def ctxW : Ctx :=
  { cwd := "/cwd".data
    fileName := "input.js".data
    fs := fun pat =>
      if pat = ("/cwd/./*.js".data) then [("/cwd/./a.js".data), ("/cwd/./b.js".data)]
      else [] }

/-- The wildcard import `import foo from "./*.js"`. -/
def dW : ImportDecl :=
  { specifiers := [ImportSpecifier.defaultSpec ("foo".data)], src := "./*.js".data }

/-- The expansion entries produced for `dW` under `ctxW`. -/
def wsW : List WildcardImport :=
  [{ ident_import := "$_import_1".data, ident_obj := "a".data, import_src := "./a.js".data },
   { ident_import := "$_import_2".data, ident_obj := "b".data, import_src := "./b.js".data }]

/-- The module items produced for `dW` under `ctxW`. -/
def itemsW : List ModuleItem :=
  [ModuleItem.importDecl { specifiers := [ImportSpecifier.defaultSpec ("$_import_1".data)], src := "./a.js".data },
   ModuleItem.importDecl { specifiers := [ImportSpecifier.defaultSpec ("$_import_2".data)], src := "./b.js".data },
   ModuleItem.constObjDecl ("foo".data)
     [(("a".data), ("$_import_1".data)), (("b".data), ("$_import_2".data))]]

/-- A context whose filesystem matches nothing. -/
def ctxE : Ctx :=
  { cwd := "/cwd".data
    fileName := "input.js".data
    fs := fun _ => [] }

/-- A context whose filesystem holds a single file whose name itself
contains a `*`: the pattern `/cwd/./*.js` matches `a*.js`, and so does the
pattern `/cwd/./a*.js` that a second transform run produces. -/
def ctx9 : Ctx :=
  { cwd := "/cwd".data
    fileName := "input.js".data
    fs := fun pat =>
      if pat = ("/cwd/./*.js".data) then [("/cwd/./a*.js".data)]
      else if pat = ("/cwd/./a*.js".data) then [("/cwd/./a*.js".data)]
      else [] }

/-- A context whose filesystem holds a file whose name contains a newline:
the pattern `/cwd/./*.js` matches `a\nb.js`. -/
def ctx4 : Ctx :=
  { cwd := "/cwd".data
    fileName := "input.js".data
    fs := fun pat =>
      if pat = ("/cwd/./*.js".data) then [("/cwd/./a\nb.js".data)]
      else [] }

/-- A context for two wildcard imports: one `*.js` match and one `*.css`
match. -/
def ctx6 : Ctx :=
  { cwd := "/cwd".data
    fileName := "input.js".data
    fs := fun pat =>
      if pat = ("/cwd/./*.js".data) then [("/cwd/./a.js".data)]
      else if pat = ("/cwd/./*.css".data) then [("/cwd/./b.css".data)]
      else [] }

/-- The wildcard import `import bar from "./*.css"`. -/
def d6 : ImportDecl :=
  { specifiers := [ImportSpecifier.defaultSpec ("bar".data)], src := "./*.css".data }

/-- A wildcard import carrying a default specifier AND a named specifier
(`import foo, \x7b bar \x7d from "./*.js"`). -/
def d5 : ImportDecl :=
  { specifiers := [ImportSpecifier.defaultSpec ("foo".data), ImportSpecifier.namedSpec ("bar".data)],
    src := "./*.js".data }

/-- A wildcard import with no specifier at all. -/
def dNone : ImportDecl := { specifiers := [], src := "./*.js".data }

/-- A wildcard import whose first specifier is a named specifier. -/
def dNamed : ImportDecl :=
  { specifiers := [ImportSpecifier.namedSpec ("bar".data)], src := "./*.js".data }

/-- An ordinary import (`import x from "./a.js"`), no wildcard marker. -/
def dPlain : ImportDecl :=
  { specifiers := [ImportSpecifier.defaultSpec ("x".data)], src := "./a.js".data }

/-! ### Prefix helper lemmas -/

theorem isPrefixOf_exists {α : Type} [BEq α] [LawfulBEq α] :
    ∀ (a s : List α), a.isPrefixOf s = true → ∃ t, s = a ++ t := by
  intro a
  induction a with
  | nil => exact fun s _ => ⟨s, rfl⟩
  | cons x xs ih =>
    intro s h
    cases s with
    | nil => simp [List.isPrefixOf] at h
    | cons y ys =>
      simp only [List.isPrefixOf, Bool.and_eq_true, beq_iff_eq] at h
      obtain ⟨t, ht⟩ := ih ys h.2
      exact ⟨t, by rw [ht, h.1]; rfl⟩

theorem isPrefixOf_append {α : Type} [BEq α] [LawfulBEq α] :
    ∀ (a t : List α), a.isPrefixOf (a ++ t) = true := by
  intro a t
  induction a with
  | nil => simp [List.isPrefixOf]
  | cons x xs ih => simp [List.isPrefixOf, ih]

/-! ### Injectivity of the synthetic identifiers -/

theorem decVal_digitChar (n : Nat) (h : n < 10) : (Nat.digitChar n).toNat - 48 = n := by
  interval_cases n <;> decide

theorem decodeDec_toDecAux : ∀ (fuel n : Nat), n < fuel → decodeDec (toDecAux fuel n) = n := by
  intro fuel
  induction fuel with
  | zero => intro n h; omega
  | succ f ih =>
    intro n h
    by_cases h10 : n < 10
    · simp only [toDecAux, if_pos h10, decodeDec, List.foldl]
      simpa using decVal_digitChar n h10
    · have h1 : n / 10 < n := Nat.div_lt_self (by omega) (by omega)
      have hd : n / 10 < f := by omega
      have hm : n % 10 < 10 := Nat.mod_lt _ (by omega)
      have ihd := ih (n / 10) hd
      simp only [toDecAux, if_neg h10]
      simp only [decodeDec, List.foldl_append, List.foldl] at ihd ⊢
      rw [ihd, decVal_digitChar _ hm]
      omega

theorem natToDecimal_injective : Function.Injective natToDecimal := by
  intro a b h
  have ha := decodeDec_toDecAux (a + 1) a (Nat.lt_succ_self a)
  have hb := decodeDec_toDecAux (b + 1) b (Nat.lt_succ_self b)
  unfold natToDecimal at h
  rw [← ha, ← hb, h]

theorem identChars_injective : Function.Injective identChars := by
  intro a b h
  exact natToDecimal_injective (List.append_cancel_left h)

/-! ### Success of the capture search -/

theorem greedyCap_isSome_of_isPrefixOf (B : Chars) :
    ∀ (t : Chars), B.isPrefixOf t = true → (greedyCap B t).isSome = true := by
  intro t h
  cases t with
  | nil => simp [greedyCap, h]
  | cons c t' =>
    simp only [greedyCap]
    by_cases hc : c = '\n'
    · rw [if_pos hc, if_pos h]
      rfl
    · rw [if_neg hc]
      cases hg : greedyCap B t' with
      | some v => rfl
      | none => rw [if_pos h]; rfl

theorem greedyCap_isSome (B : Chars) :
    ∀ (v w : Chars), '\n' ∉ v → (greedyCap B (v ++ (B ++ w))).isSome = true := by
  intro v
  induction v with
  | nil =>
    intro w _
    exact greedyCap_isSome_of_isPrefixOf B (B ++ w) (isPrefixOf_append B w)
  | cons c v' ih =>
    intro w hv
    have hc : ¬(c = '\n') := fun h => hv (by rw [h]; exact List.mem_cons_self _ _)
    have ih' := ih w (fun h => hv (List.mem_cons_of_mem _ h))
    simp only [List.cons_append, greedyCap, if_neg hc]
    cases hg : greedyCap B (v' ++ (B ++ w)) with
    | some v2 => simp
    | none => rw [hg] at ih'; simp at ih'

theorem tryCapture_isSome (A B v w : Chars) (hv : '\n' ∉ v) :
    (tryCapture A B (A ++ (v ++ (B ++ w)))).isSome = true := by
  unfold tryCapture
  rw [if_pos (isPrefixOf_append A _), List.drop_left]
  exact greedyCap_isSome B v w hv

theorem findCapture_isSome_of_tryCapture (A B : Chars) (s : Chars)
    (h : (tryCapture A B s).isSome = true) : (findCapture A B s).isSome = true := by
  cases s with
  | nil => simpa [findCapture] using h
  | cons c s' =>
    simp only [findCapture]
    cases ht : tryCapture A B (c :: s') with
    | some v => simp
    | none => rw [ht] at h; simp at h

theorem findCapture_isSome (A B : Chars) :
    ∀ (u v w : Chars), '\n' ∉ v → (findCapture A B (u ++ (A ++ (v ++ (B ++ w))))).isSome = true := by
  intro u
  induction u with
  | nil =>
    intro v w hv
    rw [List.nil_append]
    exact findCapture_isSome_of_tryCapture A B _ (tryCapture_isSome A B v w hv)
  | cons c u' ih =>
    intro v w hv
    rw [List.cons_append]
    simp only [findCapture]
    cases ht : tryCapture A B (c :: (u' ++ (A ++ (v ++ (B ++ w))))) with
    | some x => simp
    | none => exact ih v w hv

/-! ### Sanitizer lemmas -/

/-- Characters that survive a run of the sanitizer never violate the word
class. -/
theorem mem_of_mem_trimUnderscores {c : Char} {l : Chars} (h : c ∈ trimUnderscores l) : c ∈ l := by
  unfold trimUnderscores at h
  rw [List.mem_reverse] at h
  have h1 := (List.dropWhile_sublist (fun c => c == '_')).subset h
  rw [List.mem_reverse] at h1
  exact (List.dropWhile_sublist (fun c => c == '_')).subset h1

theorem mem_of_mem_collapseUnderscores : ∀ (l : Chars) (c : Char), c ∈ collapseUnderscores l → c ∈ l
  | [], c, h => by simp [collapseUnderscores] at h
  | [a], c, h => by simpa [collapseUnderscores] using h
  | a :: b :: rest, c, h => by
    simp only [collapseUnderscores] at h
    by_cases hab : a = '_' ∧ b = '_'
    · rw [if_pos hab] at h
      exact List.mem_cons_of_mem _ (mem_of_mem_collapseUnderscores (b :: rest) c h)
    · rw [if_neg hab] at h
      rcases List.mem_cons.mp h with h1 | h2
      · exact h1 ▸ List.mem_cons_self _ _
      · exact List.mem_cons_of_mem _ (mem_of_mem_collapseUnderscores (b :: rest) c h2)

theorem collapseUnderscores_head? : ∀ (l : Chars), (collapseUnderscores l).head? = l.head?
  | [] => rfl
  | [_] => rfl
  | a :: b :: rest => by
    simp only [collapseUnderscores]
    by_cases hab : a = '_' ∧ b = '_'
    · rw [if_pos hab, collapseUnderscores_head? (b :: rest)]
      simp [hab.1, hab.2]
    · rw [if_neg hab]
      rfl

theorem collapseUnderscores_getLast? : ∀ (l : Chars), (collapseUnderscores l).getLast? = l.getLast?
  | [] => rfl
  | [_] => rfl
  | a :: b :: rest => by
    simp only [collapseUnderscores]
    by_cases hab : a = '_' ∧ b = '_'
    · rw [if_pos hab, collapseUnderscores_getLast? (b :: rest), List.getLast?_cons_cons]
    · rw [if_neg hab]
      cases hc : collapseUnderscores (b :: rest) with
      | nil =>
        have hh := collapseUnderscores_head? (b :: rest)
        rw [hc] at hh
        simp at hh
      | cons x xs =>
        rw [List.getLast?_cons_cons, ← hc, collapseUnderscores_getLast? (b :: rest),
          List.getLast?_cons_cons]

theorem noDoubleUnderscore_collapse : ∀ (l : Chars), noDoubleUnderscore (collapseUnderscores l) = true
  | [] => rfl
  | [_] => rfl
  | a :: b :: rest => by
    simp only [collapseUnderscores]
    by_cases hab : a = '_' ∧ b = '_'
    · rw [if_pos hab]
      exact noDoubleUnderscore_collapse (b :: rest)
    · rw [if_neg hab]
      have ih := noDoubleUnderscore_collapse (b :: rest)
      cases hc : collapseUnderscores (b :: rest) with
      | nil => rfl
      | cons x xs =>
        have hx : x = b := by
          have hh := collapseUnderscores_head? (b :: rest)
          rw [hc] at hh
          simp only [List.head?_cons] at hh
          exact Option.some.inj hh
        rw [hc] at ih
        have hfalse : (a == '_' && x == '_') = false := by
          rw [hx]
          by_cases h1 : a = '_'
          · by_cases h2 : b = '_'
            · exact absurd ⟨h1, h2⟩ hab
            · simp [h2]
          · simp [h1]
        simp only [noDoubleUnderscore, Bool.and_eq_true]
        exact ⟨by rw [hfalse]; rfl, ih⟩

theorem collapse_eq_self_of_noDouble : ∀ (l : Chars), noDoubleUnderscore l = true → collapseUnderscores l = l
  | [], _ => rfl
  | [_], _ => rfl
  | a :: b :: rest, h => by
    simp only [noDoubleUnderscore, Bool.and_eq_true] at h
    have hab : ¬(a = '_' ∧ b = '_') := by
      intro hc
      rw [hc.1, hc.2] at h
      simp at h
    simp only [collapseUnderscores, if_neg hab]
    rw [collapse_eq_self_of_noDouble (b :: rest) h.2]

theorem dropWhile_eq_self_of_head? {p : Char → Bool} {l : Chars}
    (h : ∀ c, l.head? = some c → p c = false) : l.dropWhile p = l := by
  cases l with
  | nil => rfl
  | cons x xs => simp [List.dropWhile_cons, h x rfl]

theorem head?_dropWhile {p : Char → Bool} : ∀ (l : Chars) (c : Char), (l.dropWhile p).head? = some c → p c = false
  | [], c, h => by simp [List.dropWhile] at h
  | x :: xs, c, h => by
    by_cases hp : p x
    · rw [List.dropWhile_cons, if_pos hp] at h
      exact head?_dropWhile xs c h
    · rw [List.dropWhile_cons, if_neg hp] at h
      rw [List.head?_cons] at h
      rw [← Option.some.inj h]
      exact Bool.eq_false_iff.mpr hp

theorem getLast?_dropWhile_ne_nil {p : Char → Bool} {l : Chars}
    (h : l.dropWhile p ≠ []) : (l.dropWhile p).getLast? = l.getLast? := by
  conv_rhs => rw [← List.takeWhile_append_dropWhile p l]
  rw [List.getLast?_append]
  cases hd : (l.dropWhile p).getLast? with
  | none => exact absurd (List.getLast?_eq_none_iff.mp hd) h
  | some x => simp

theorem trimUnderscores_head? {l : Chars} :
    ∀ c, (trimUnderscores l).head? = some c → ¬(c = '_') := by
  intro c hc
  unfold trimUnderscores at hc
  rw [List.head?_reverse] at hc
  by_cases hnil : (List.dropWhile (fun c => c == '_') l).reverse.dropWhile (fun c => c == '_') = []
  · rw [hnil] at hc
    simp at hc
  · rw [getLast?_dropWhile_ne_nil hnil, List.getLast?_reverse] at hc
    have := head?_dropWhile l c hc
    simpa using this

theorem trimUnderscores_getLast? {l : Chars} :
    ∀ c, (trimUnderscores l).getLast? = some c → ¬(c = '_') := by
  intro c hc
  unfold trimUnderscores at hc
  rw [List.getLast?_reverse] at hc
  have := head?_dropWhile _ c hc
  simpa using this

theorem trimUnderscores_eq_self {l : Chars}
    (hh : ∀ c, l.head? = some c → ¬(c = '_'))
    (hl : ∀ c, l.getLast? = some c → ¬(c = '_')) :
    trimUnderscores l = l := by
  unfold trimUnderscores
  have h1 : l.dropWhile (fun c => c == '_') = l :=
    dropWhile_eq_self_of_head? (fun c hc => beq_eq_false_iff_ne.mpr (hh c hc))
  rw [h1]
  have h2 : l.reverse.dropWhile (fun c => c == '_') = l.reverse :=
    dropWhile_eq_self_of_head? (fun c hc => by
      rw [List.head?_reverse] at hc
      exact beq_eq_false_iff_ne.mpr (hl c hc))
  rw [h2, List.reverse_reverse]

theorem mapDash_eq_self {l : Chars} (h : ∀ c ∈ l, ¬(c = '-')) : mapDash l = l := by
  unfold mapDash
  induction l with
  | nil => rfl
  | cons x xs ih =>
    simp only [List.map_cons, if_neg (h x (List.mem_cons_self _ _))]
    rw [ih (fun c hc => h c (List.mem_cons_of_mem _ hc))]

theorem removeNonWord_eq_self {l : Chars} (h : ∀ c ∈ l, isWordChar c = true) : removeNonWord l = l :=
  List.filter_eq_self.mpr h

/-- Every character of a sanitizer output is in the word class. -/
theorem sanitize_output_word {l : Chars} :
    ∀ c ∈ create_valid_property_name l, isWordChar c = true := by
  intro c hc
  unfold create_valid_property_name at hc
  have h1 := mem_of_mem_trimUnderscores (mem_of_mem_collapseUnderscores _ c hc)
  exact List.of_mem_filter h1

/-- A sanitizer output never starts with an underscore. -/
theorem sanitize_output_head {l : Chars} :
    ∀ c, (create_valid_property_name l).head? = some c → ¬(c = '_') := by
  intro c hc
  unfold create_valid_property_name at hc
  rw [collapseUnderscores_head?] at hc
  exact trimUnderscores_head? c hc

/-- A sanitizer output never ends with an underscore. -/
theorem sanitize_output_getLast {l : Chars} :
    ∀ c, (create_valid_property_name l).getLast? = some c → ¬(c = '_') := by
  intro c hc
  unfold create_valid_property_name at hc
  rw [collapseUnderscores_getLast?] at hc
  exact trimUnderscores_getLast? c hc

/-- A sanitizer output has no underscore run of length two. -/
theorem sanitize_output_noDouble (l : Chars) :
    noDoubleUnderscore (create_valid_property_name l) = true :=
  noDoubleUnderscore_collapse _

/-- The sanitizer fixes every string already in canonical shape. -/
theorem sanitize_eq_self {l : Chars}
    (hw : ∀ c ∈ l, isWordChar c = true)
    (hh : ∀ c, l.head? = some c → ¬(c = '_'))
    (hl : ∀ c, l.getLast? = some c → ¬(c = '_'))
    (hnd : noDoubleUnderscore l = true) :
    create_valid_property_name l = l := by
  unfold create_valid_property_name
  have hdash : ∀ c ∈ l, ¬(c = '-') := by
    intro c hc he
    have hcw := hw c hc
    rw [he] at hcw
    exact absurd hcw (by decide)
  rw [mapDash_eq_self hdash, removeNonWord_eq_self hw, trimUnderscores_eq_self hh hl,
    collapse_eq_self_of_noDouble l hnd]

/-! ### Characterization of `expandPaths` -/

theorem expandPaths_ok_counter (A B xxx : Chars) :
    ∀ (paths : List Chars) (c : Nat) (ws : List WildcardImport) (c' : Nat),
      expandPaths A B xxx c paths = .ok (ws, c') →
      c' = c + paths.length ∧ ws.length = paths.length := by
  intro paths
  induction paths with
  | nil =>
    intro c ws c' h
    simp only [expandPaths, Except.ok.injEq, Prod.mk.injEq] at h
    obtain ⟨h1, h2⟩ := h
    subst h1
    subst h2
    simp
  | cons p rest ih =>
    intro c ws c' h
    simp only [expandPaths] at h
    cases hf : findCapture A B p <;> simp only [hf] at h
    case none => cases h
    case some frag =>
      cases hs : stripPrefixPath xxx p <;> simp only [hs] at h
      case none => cases h
      case some rel =>
        cases he : expandPaths A B xxx (next_variable_id c).2 rest <;> simp only [he] at h
        case error e => cases h
        case ok pr =>
          obtain ⟨tail, c2⟩ := pr
          simp only [Except.ok.injEq, Prod.mk.injEq] at h
          obtain ⟨h1, h2⟩ := h
          subst h1
          subst h2
          have hx := ih _ tail c2 he
          simp only [next_variable_id] at hx
          constructor
          · simp only [List.length_cons]
            omega
          · simp [hx.2]

theorem expandPaths_ok_get (A B xxx : Chars) :
    ∀ (paths : List Chars) (c : Nat) (ws : List WildcardImport) (c' : Nat),
      expandPaths A B xxx c paths = .ok (ws, c') →
      ∀ (i : Nat) (hp : i < paths.length) (hw : i < ws.length),
        ∃ frag rel,
          findCapture A B (paths.get ⟨i, hp⟩) = some frag ∧
          stripPrefixPath xxx (paths.get ⟨i, hp⟩) = some rel ∧
          ws.get ⟨i, hw⟩ =
            { ident_import := identChars (c + i + 1),
              ident_obj := create_valid_property_name frag,
              import_src := normalizeRel rel } := by
  intro paths
  induction paths with
  | nil =>
    intro c ws c' h i hp hw
    exact absurd hp (by simp)
  | cons p rest ih =>
    intro c ws c' h i hp hw
    simp only [expandPaths] at h
    cases hf : findCapture A B p <;> simp only [hf] at h
    case none => cases h
    case some frag =>
      cases hs : stripPrefixPath xxx p <;> simp only [hs] at h
      case none => cases h
      case some rel =>
        cases he : expandPaths A B xxx (next_variable_id c).2 rest <;> simp only [he] at h
        case error e => cases h
        case ok pr =>
          obtain ⟨tail, c2⟩ := pr
          simp only [Except.ok.injEq, Prod.mk.injEq] at h
          obtain ⟨h1, h2⟩ := h
          subst h1
          subst h2
          cases i with
          | zero => exact ⟨frag, rel, hf, hs, rfl⟩
          | succ j =>
            have hp' : j < rest.length := by
              simp only [List.length_cons] at hp
              omega
            have hw' : j < tail.length := by
              simp only [List.length_cons] at hw
              omega
            obtain ⟨frag2, rel2, hf2, hs2, hget⟩ :=
              ih (next_variable_id c).2 tail c2 he j hp' hw'
            refine ⟨frag2, rel2, hf2, hs2, ?_⟩
            simp only [List.get_cons_succ]
            rw [hget]
            simp only [next_variable_id]
            have harith : c + 1 + j + 1 = c + (j + 1) + 1 := by omega
            rw [harith]

theorem expandPaths_ok_idents (A B xxx : Chars) :
    ∀ (paths : List Chars) (c : Nat) (ws : List WildcardImport) (c' : Nat),
      expandPaths A B xxx c paths = .ok (ws, c') →
      ws.map (fun w => w.ident_import) = (List.range' (c + 1) paths.length).map identChars := by
  intro paths
  induction paths with
  | nil =>
    intro c ws c' h
    simp only [expandPaths, Except.ok.injEq, Prod.mk.injEq] at h
    rw [← h.1]
    simp
  | cons p rest ih =>
    intro c ws c' h
    simp only [expandPaths] at h
    cases hf : findCapture A B p <;> simp only [hf] at h
    case none => cases h
    case some frag =>
      cases hs : stripPrefixPath xxx p <;> simp only [hs] at h
      case none => cases h
      case some rel =>
        cases he : expandPaths A B xxx (next_variable_id c).2 rest <;> simp only [he] at h
        case error e => cases h
        case ok pr =>
          obtain ⟨tail, c2⟩ := pr
          simp only [Except.ok.injEq, Prod.mk.injEq] at h
          obtain ⟨h1, h2⟩ := h
          subst h1
          subst h2
          have hx := ih _ tail c2 he
          simp only [next_variable_id] at hx
          simp only [List.length_cons, List.range'_succ, List.map_cons, next_variable_id]
          exact congrArg (identChars (c + 1) :: ·) hx

theorem expandPaths_ok_mem (A B xxx : Chars) :
    ∀ (paths : List Chars) (c : Nat) (ws : List WildcardImport) (c' : Nat),
      expandPaths A B xxx c paths = .ok (ws, c') →
      ∀ w ∈ ws, ∃ p ∈ paths, ∃ rel, stripPrefixPath xxx p = some rel ∧ w.import_src = normalizeRel rel := by
  intro paths
  induction paths with
  | nil =>
    intro c ws c' h w hw
    simp only [expandPaths, Except.ok.injEq, Prod.mk.injEq] at h
    rw [← h.1] at hw
    simp at hw
  | cons p rest ih =>
    intro c ws c' h w hw
    simp only [expandPaths] at h
    cases hf : findCapture A B p <;> simp only [hf] at h
    case none => cases h
    case some frag =>
      cases hs : stripPrefixPath xxx p <;> simp only [hs] at h
      case none => cases h
      case some rel =>
        cases he : expandPaths A B xxx (next_variable_id c).2 rest <;> simp only [he] at h
        case error e => cases h
        case ok pr =>
          obtain ⟨tail, c2⟩ := pr
          simp only [Except.ok.injEq, Prod.mk.injEq] at h
          obtain ⟨h1, h2⟩ := h
          subst h1
          subst h2
          rcases List.mem_cons.mp hw with h1 | h2
          · exact ⟨p, List.mem_cons_self _ _, rel, hs, by rw [h1]⟩
          · obtain ⟨p2, hp2, rel2, hs2, hsrc2⟩ := ih _ tail c2 he w h2
            exact ⟨p2, List.mem_cons_of_mem _ hp2, rel2, hs2, hsrc2⟩

/-! ### Characterization of `split_wildcard_import` and `foldItems` -/

theorem split_ok_elim (ctx : Ctx) (c : Nat) (d : ImportDecl) (items : List ModuleItem) (c' : Nat)
    (h : split_wildcard_import ctx c d = .ok (items, c')) :
    ∃ nm ws,
      d.specifiers.head? = some (ImportSpecifier.defaultSpec nm) ∧
      expand_wildcard ctx c d = .ok (ws, c') ∧
      items = ws.map (fun w => ModuleItem.importDecl
          { specifiers := [ImportSpecifier.defaultSpec w.ident_import], src := w.import_src }) ++
        [ModuleItem.constObjDecl nm (ws.map (fun w => (w.ident_obj, w.ident_import)))] := by
  unfold split_wildcard_import at h
  cases hh : d.specifiers.head? <;> simp only [hh] at h
  case none => cases h
  case some spec =>
    cases spec with
    | namedSpec nm => cases h
    | namespaceSpec nm => cases h
    | defaultSpec nm =>
      cases he : expand_wildcard ctx c d <;> simp only [he] at h
      case error e => cases h
      case ok pr =>
        obtain ⟨ws, c2⟩ := pr
        simp only [Except.ok.injEq, Prod.mk.injEq] at h
        obtain ⟨h1, h2⟩ := h
        subst h2
        exact ⟨nm, ws, rfl, rfl, h1.symm⟩

theorem foldItems_append (ctx : Ctx) :
    ∀ (xs ys : List ModuleItem) (c : Nat),
      foldItems ctx c (xs ++ ys) = seqFold (foldItems ctx c xs) (fun c1 => foldItems ctx c1 ys) := by
  intro xs
  induction xs with
  | nil =>
    intro ys c
    simp only [List.nil_append, foldItems, seqFold]
    cases h : foldItems ctx c ys with
    | error e => rfl
    | ok pr =>
      obtain ⟨b, c2⟩ := pr
      simp
  | cons item rest ih =>
    intro ys c
    cases item with
    | importDecl d =>
      by_cases hv : is_valid_wildcard_import d = true
      · simp only [List.cons_append, foldItems, List.append_eq, if_pos hv, ih ys]
        cases split_wildcard_import ctx c d with
        | error e => simp [seqFold]
        | ok pr =>
          obtain ⟨items, c1⟩ := pr
          simp only [seqFold]
          cases h1 : foldItems ctx c1 rest with
          | error e => simp
          | ok pr1 =>
            obtain ⟨a, c2⟩ := pr1
            cases h2 : foldItems ctx c2 ys with
            | error e => simp [h2]
            | ok pr2 =>
              obtain ⟨b, c3⟩ := pr2
              simp [h2, List.append_assoc]
      · simp only [List.cons_append, foldItems, List.append_eq, if_neg hv, ih ys]
        cases h1 : foldItems ctx c rest with
        | error e => simp [seqFold]
        | ok pr1 =>
          obtain ⟨a, c2⟩ := pr1
          simp only [seqFold]
          cases h2 : foldItems ctx c2 ys with
          | error e => simp [h2]
          | ok pr2 =>
            obtain ⟨b, c3⟩ := pr2
            simp [h2]
    | constObjDecl nm props =>
      simp only [List.cons_append, foldItems, List.append_eq, ih ys]
      cases h1 : foldItems ctx c rest with
      | error e => simp [seqFold]
      | ok pr1 =>
        obtain ⟨a, c2⟩ := pr1
        simp only [seqFold]
        cases h2 : foldItems ctx c2 ys with
        | error e => simp [h2]
        | ok pr2 =>
          obtain ⟨b, c3⟩ := pr2
          simp [h2]
    | otherStmt tag =>
      simp only [List.cons_append, foldItems, List.append_eq, ih ys]
      cases h1 : foldItems ctx c rest with
      | error e => simp [seqFold]
      | ok pr1 =>
        obtain ⟨a, c2⟩ := pr1
        simp only [seqFold]
        cases h2 : foldItems ctx c2 ys with
        | error e => simp [h2]
        | ok pr2 =>
          obtain ⟨b, c3⟩ := pr2
          simp [h2]

theorem foldItems_mono (ctx : Ctx) :
    ∀ (body : List ModuleItem) (c : Nat) (out : List ModuleItem) (c' : Nat),
      foldItems ctx c body = .ok (out, c') → c ≤ c' := by
  intro body
  induction body with
  | nil =>
    intro c out c' h
    simp only [foldItems, Except.ok.injEq, Prod.mk.injEq] at h
    omega
  | cons item rest ih =>
    intro c out c' h
    cases item with
    | importDecl d =>
      by_cases hv : is_valid_wildcard_import d = true
      · simp only [foldItems, if_pos hv] at h
        cases hsw : split_wildcard_import ctx c d with
        | error e =>
          simp only [hsw] at h
          cases h
        | ok pr =>
          obtain ⟨items, c1⟩ := pr
          simp only [hsw] at h
          obtain ⟨nm, ws, _, he, _⟩ := split_ok_elim ctx c d items c1 hsw
          have hc1 : c ≤ c1 := by
            have := (expandPaths_ok_counter _ _ _ _ c ws c1 he).1
            omega
          cases h1 : foldItems ctx c1 rest with
          | error e =>
            simp only [h1] at h
            cases h
          | ok pr1 =>
            obtain ⟨tail, c2⟩ := pr1
            simp only [h1, Except.ok.injEq, Prod.mk.injEq] at h
            have := ih c1 tail c2 h1
            omega
      · simp only [foldItems, if_neg hv] at h
        cases h1 : foldItems ctx c rest with
        | error e =>
          simp only [h1] at h
          cases h
        | ok pr1 =>
          obtain ⟨tail, c2⟩ := pr1
          simp only [h1, Except.ok.injEq, Prod.mk.injEq] at h
          have := ih c tail c2 h1
          omega
    | constObjDecl nm props =>
      simp only [foldItems] at h
      cases h1 : foldItems ctx c rest with
      | error e =>
        simp only [h1] at h
        cases h
      | ok pr1 =>
        obtain ⟨tail, c2⟩ := pr1
        simp only [h1, Except.ok.injEq, Prod.mk.injEq] at h
        have := ih c tail c2 h1
        omega
    | otherStmt tag =>
      simp only [foldItems] at h
      cases h1 : foldItems ctx c rest with
      | error e =>
        simp only [h1] at h
        cases h
      | ok pr1 =>
        obtain ⟨tail, c2⟩ := pr1
        simp only [h1, Except.ok.injEq, Prod.mk.injEq] at h
        have := ih c tail c2 h1
        omega

theorem foldItems_id_of_no_wildcard (ctx : Ctx) :
    ∀ (body : List ModuleItem) (c : Nat),
      (∀ d, ModuleItem.importDecl d ∈ body → is_valid_wildcard_import d = false) →
      foldItems ctx c body = .ok (body, c) := by
  intro body
  induction body with
  | nil => intro c _; rfl
  | cons item rest ih =>
    intro c hno
    have hrest := ih c (fun d hd => hno d (List.mem_cons_of_mem _ hd))
    cases item with
    | importDecl d =>
      have hv : is_valid_wildcard_import d = false := hno d (List.mem_cons_self _ _)
      simp only [foldItems, hv, Bool.false_eq_true, if_false, hrest]
    | constObjDecl nm props =>
      simp only [foldItems, hrest]
    | otherStmt tag =>
      simp only [foldItems, hrest]

/-! ### Character provenance through the path functions -/

theorem mem_splitOnSlash : ∀ (p : Chars) (x : Chars), x ∈ splitOnSlash p → ∀ c ∈ x, c ∈ p := by
  intro p
  induction p with
  | nil =>
    intro x hx c hc
    simp only [splitOnSlash, List.mem_singleton] at hx
    subst hx
    simp at hc
  | cons ch rest ih =>
    intro x hx c hc
    simp only [splitOnSlash] at hx
    by_cases h : ch = '/'
    · rw [if_pos h] at hx
      rcases List.mem_cons.mp hx with h1 | h2
      · subst h1
        simp at hc
      · exact List.mem_cons_of_mem _ (ih x h2 c hc)
    · rw [if_neg h] at hx
      cases hsp : splitOnSlash rest with
      | nil =>
        rw [hsp] at hx
        simp only [List.mem_singleton] at hx
        subst hx
        rcases List.mem_cons.mp hc with h3 | h4
        · subst h3
          exact List.mem_cons_self _ _
        · simp at h4
      | cons g gs =>
        rw [hsp] at hx
        rcases List.mem_cons.mp hx with h1 | h2
        · subst h1
          rcases List.mem_cons.mp hc with h3 | h4
          · subst h3
            exact List.mem_cons_self _ _
          · have hg : g ∈ splitOnSlash rest := by
              rw [hsp]
              exact List.mem_cons_self _ _
            exact List.mem_cons_of_mem _ (ih g hg c h4)
        · have hx2 : x ∈ splitOnSlash rest := by
            rw [hsp]
            exact List.mem_cons_of_mem _ h2
          exact List.mem_cons_of_mem _ (ih x hx2 c hc)

theorem mem_pathComponents (p : Chars) (x : Chars) (hx : x ∈ pathComponents p) :
    x = ['/'] ∨ x = ['.'] ∨ x ∈ splitOnSlash p := by
  simp only [pathComponents] at hx
  by_cases h1 : p.head? = some '/'
  · rw [if_pos h1] at hx
    rcases List.mem_cons.mp hx with h2 | h2
    · exact Or.inl h2
    · exact Or.inr (Or.inr (List.mem_of_mem_filter h2))
  · rw [if_neg h1] at hx
    by_cases h2 : (splitOnSlash p).head? = some ['.']
    · rw [if_pos h2] at hx
      rcases List.mem_cons.mp hx with h3 | h3
      · exact Or.inr (Or.inl h3)
      · exact Or.inr (Or.inr (List.mem_of_mem_drop (List.mem_of_mem_filter h3)))
    · rw [if_neg h2] at hx
      exact Or.inr (Or.inr (List.mem_of_mem_filter hx))

theorem mem_joinComps : ∀ (l : List Chars) (c : Char), c ∈ joinComps l → c = '/' ∨ ∃ x ∈ l, c ∈ x
  | [], c, hc => by simp [joinComps] at hc
  | [x], c, hc => by
    simp only [joinComps] at hc
    exact Or.inr ⟨x, List.mem_cons_self _ _, hc⟩
  | x :: y :: rest, c, hc => by
    simp only [joinComps] at hc
    rcases List.mem_append.mp hc with h1 | h2
    · by_cases hx : x = ['/']
      · rw [if_pos hx] at h1
        exact Or.inr ⟨x, List.mem_cons_self _ _, h1⟩
      · rw [if_neg hx] at h1
        rcases List.mem_append.mp h1 with h3 | h4
        · exact Or.inr ⟨x, List.mem_cons_self _ _, h3⟩
        · simp only [List.mem_singleton] at h4
          exact Or.inl h4
    · rcases mem_joinComps (y :: rest) c h2 with h3 | ⟨x2, hx2, hcx2⟩
      · exact Or.inl h3
      · exact Or.inr ⟨x2, List.mem_cons_of_mem _ hx2, hcx2⟩

theorem stripPrefixPath_mem {base p rel : Chars} (h : stripPrefixPath base p = some rel) :
    ∀ c ∈ rel, c = '/' ∨ c = '.' ∨ c ∈ p := by
  simp only [stripPrefixPath] at h
  by_cases hpre : (pathComponents base).isPrefixOf (pathComponents p) = true
  · rw [if_pos hpre] at h
    intro c hc
    rw [← Option.some.inj h] at hc
    rcases mem_joinComps _ c hc with h1 | ⟨x, hx, hcx⟩
    · exact Or.inl h1
    · have hx2 : x ∈ pathComponents p := List.mem_of_mem_drop hx
      rcases mem_pathComponents p x hx2 with hr | hd | hs
      · rw [hr] at hcx
        simp only [List.mem_singleton] at hcx
        exact Or.inl hcx
      · rw [hd] at hcx
        simp only [List.mem_singleton] at hcx
        exact Or.inr (Or.inl hcx)
      · exact Or.inr (Or.inr (mem_splitOnSlash p x hs c hcx))
  · rw [if_neg hpre] at h
    cases h

theorem stripPrefixPath_no_star {base p rel : Chars} (hp : '*' ∉ p)
    (h : stripPrefixPath base p = some rel) : '*' ∉ rel := by
  intro hc
  rcases stripPrefixPath_mem h '*' hc with h1 | h2 | h3
  · exact absurd h1 (by decide)
  · exact absurd h2 (by decide)
  · exact hp h3

theorem normalizeRel_no_star {r : Chars} (h : '*' ∉ r) : '*' ∉ normalizeRel r := by
  unfold normalizeRel
  by_cases hh : r.head? = some '.'
  · rw [if_pos hh]
    exact h
  · rw [if_neg hh]
    intro hc
    rcases List.mem_cons.mp hc with h1 | h2
    · exact absurd h1 (by decide)
    · rcases List.mem_cons.mp h2 with h3 | h4
      · exact absurd h3 (by decide)
      · exact h h4

theorem not_wildcard_of_no_star {d : ImportDecl} (h : '*' ∉ d.src) :
    is_valid_wildcard_import d = false := by
  unfold is_valid_wildcard_import
  rw [List.count_eq_zero.mpr h]
  rfl

/-! ### Splitting at the single wildcard -/

theorem takeWhile_append_of_all {p : Char → Bool} :
    ∀ (xs ys : Chars), (∀ c ∈ xs, p c = true) → (xs ++ ys).takeWhile p = xs ++ ys.takeWhile p := by
  intro xs
  induction xs with
  | nil => intro ys _; rfl
  | cons x xs ih =>
    intro ys hall
    rw [List.cons_append, List.takeWhile_cons, if_pos (hall x (List.mem_cons_self _ _))]
    rw [ih ys (fun c hc => hall c (List.mem_cons_of_mem _ hc))]
    rfl

theorem dropWhile_append_of_all {p : Char → Bool} :
    ∀ (xs ys : Chars), (∀ c ∈ xs, p c = true) → (xs ++ ys).dropWhile p = ys.dropWhile p := by
  intro xs
  induction xs with
  | nil => intro ys _; rfl
  | cons x xs ih =>
    intro ys hall
    rw [List.cons_append, List.dropWhile_cons, if_pos (hall x (List.mem_cons_self _ _))]
    exact ih ys (fun c hc => hall c (List.mem_cons_of_mem _ hc))

theorem splitStar_of_decomp {A B : Chars} (hA : '*' ∉ A) :
    splitStar (A ++ '*' :: B) = (A, B) := by
  have hall : ∀ c ∈ A, (c != '*') = true := by
    intro c hc
    have hne : ¬(c = '*') := fun he => hA (he ▸ hc)
    simpa using hne
  simp only [splitStar]
  rw [takeWhile_append_of_all A ('*' :: B) hall, dropWhile_append_of_all A ('*' :: B) hall]
  simp [List.takeWhile_cons, List.dropWhile_cons]

theorem splitStar_decomp {src : Chars} (h : src.count '*' = 1) :
    src = (splitStar src).1 ++ '*' :: (splitStar src).2 ∧
      '*' ∉ (splitStar src).1 ∧ '*' ∉ (splitStar src).2 := by
  have hsplit := List.takeWhile_append_dropWhile (fun c => c != '*') src
  have hAstar : '*' ∉ src.takeWhile (fun c => c != '*') := by
    intro hc
    have := List.mem_takeWhile_imp hc
    simp at this
  cases hD : src.dropWhile (fun c => c != '*') with
  | nil =>
    exfalso
    have hcount : src.count '*' = 0 := by
      have hsrc : src = src.takeWhile (fun c => c != '*') := by
        conv_lhs => rw [← hsplit]
        rw [hD, List.append_nil]
      conv_lhs => rw [hsrc]
      exact List.count_eq_zero.mpr hAstar
    omega
  | cons dch tail =>
    have hdch : dch = '*' := by
      have hh : (src.dropWhile (fun c => c != '*')).head? = some dch := by
        rw [hD]
        rfl
      have := head?_dropWhile src dch hh
      simpa using this
    subst hdch
    have hsrc : src = src.takeWhile (fun c => c != '*') ++ '*' :: tail := by
      conv_lhs => rw [← hsplit]
      rw [hD]
    have hc2 : List.count '*' (src.takeWhile (fun c => c != '*')) = 0 :=
      List.count_eq_zero.mpr hAstar
    have hc1 : List.count '*' src =
        List.count '*' (src.takeWhile (fun c => c != '*')) + List.count '*' ('*' :: tail) := by
      conv_lhs => rw [hsrc]
      rw [List.count_append]
    have hc4 : List.count '*' ('*' :: tail) = List.count '*' tail + 1 := by
      rw [List.count_cons]
      simp
    have hBcount : List.count '*' tail = 0 := by omega
    refine ⟨?_, ?_, ?_⟩
    · simp only [splitStar]
      rw [hD]
      exact hsrc
    · exact hAstar
    · simp only [splitStar]
      rw [hD]
      exact List.count_eq_zero.mp hBcount

/-! ### Star-freeness of resolved prefixes -/

theorem joinPath_chars {a b : Chars} : ∀ c ∈ joinPath a b, c = '/' ∨ c ∈ a ∨ c ∈ b := by
  intro c hc
  unfold joinPath at hc
  split_ifs at hc with h1 h2 h3
  · exact Or.inr (Or.inr hc)
  · exact Or.inr (Or.inr hc)
  · rcases List.mem_append.mp hc with h | h
    · exact Or.inr (Or.inl h)
    · exact Or.inr (Or.inr h)
  · rcases List.mem_append.mp hc with h | h
    · exact Or.inr (Or.inl h)
    · rcases List.mem_cons.mp h with h4 | h4
      · exact Or.inl h4
      · exact Or.inr (Or.inr h4)

theorem dropLastComponent_chars {p : Chars} : ∀ c ∈ dropLastComponent p, c = '/' ∨ c ∈ p := by
  intro c hc
  simp only [dropLastComponent] at hc
  split_ifs at hc with h1 h2
  · simp only [List.mem_singleton] at hc
    exact Or.inl hc
  · simp at hc
  · rw [List.mem_reverse] at hc
    have hc1 := (List.dropWhile_sublist _).subset hc
    have hc2 := (List.dropWhile_sublist _).subset hc1
    have hc3 := (List.dropWhile_sublist _).subset hc2
    rw [List.mem_reverse] at hc3
    exact Or.inr hc3

theorem joinPath_decomp (q b : Chars) :
    joinPath q b = b ∨ joinPath q b = q ++ b ∨ joinPath q b = (q ++ ['/']) ++ b := by
  unfold joinPath
  split_ifs
  · exact Or.inl rfl
  · exact Or.inl rfl
  · exact Or.inr (Or.inl rfl)
  · exact Or.inr (Or.inr (by simp))

theorem resolvedPattern_decomp (ctx : Ctx) (src : Chars)
    (hcwd : '*' ∉ ctx.cwd) (hfile : '*' ∉ ctx.fileName) :
    ∃ D, resolvedPattern ctx src = D ++ src ∧ '*' ∉ D := by
  have hq : '*' ∉ dropLastComponent (joinPath ctx.cwd ctx.fileName) := by
    intro hc
    rcases dropLastComponent_chars _ hc with h1 | h2
    · exact absurd h1 (by decide)
    · rcases joinPath_chars _ h2 with h3 | h4 | h5
      · exact absurd h3 (by decide)
      · exact hcwd h4
      · exact hfile h5
  have hr : resolvedPattern ctx src =
      joinPath (dropLastComponent (joinPath ctx.cwd ctx.fileName)) src := rfl
  rcases joinPath_decomp (dropLastComponent (joinPath ctx.cwd ctx.fileName)) src with h | h | h
  · exact ⟨[], by rw [hr, h]; rfl, by simp⟩
  · exact ⟨_, by rw [hr, h], hq⟩
  · refine ⟨dropLastComponent (joinPath ctx.cwd ctx.fileName) ++ ['/'], by rw [hr, h], ?_⟩
    intro hc
    rcases List.mem_append.mp hc with h4 | h4
    · exact hq h4
    · exact absurd (List.mem_singleton.mp h4) (by decide)

/-! ### Eliminating the spec-level glob matcher -/

theorem specGlobMatches_elim {pat path : Chars} (h : specGlobMatches pat path = true) :
    ∃ m, path = (splitStar pat).1 ++ (m ++ (splitStar pat).2) ∧ '/' ∉ m := by
  simp only [specGlobMatches] at h
  by_cases hle : (splitStar pat).1.length + (splitStar pat).2.length ≤ path.length
  · rw [if_pos hle] at h
    simp only [Bool.and_eq_true, decide_eq_true_eq, List.all_eq_true] at h
    refine ⟨_, h.1, ?_⟩
    intro hc
    have hfalse := h.2 _ hc
    simp at hfalse
  · rw [if_neg hle] at h
    cases h

/-! ### The fully expanded output contains no wildcard import -/

theorem foldItems_out_no_wildcard (ctx : Ctx)
    (hstar : ∀ pat p, p ∈ ctx.fs pat → '*' ∉ p) :
    ∀ (body : List ModuleItem) (c : Nat) (out : List ModuleItem) (c' : Nat),
      foldItems ctx c body = .ok (out, c') →
      ∀ d, ModuleItem.importDecl d ∈ out → is_valid_wildcard_import d = false := by
  intro body
  induction body with
  | nil =>
    intro c out c' h d hd
    simp only [foldItems, Except.ok.injEq, Prod.mk.injEq] at h
    rw [← h.1] at hd
    simp at hd
  | cons item rest ih =>
    intro c out c' h d hd
    cases item with
    | importDecl d0 =>
      by_cases hv : is_valid_wildcard_import d0 = true
      · simp only [foldItems, if_pos hv] at h
        cases hsw : split_wildcard_import ctx c d0 with
        | error e =>
          simp only [hsw] at h
          cases h
        | ok pr =>
          obtain ⟨items, c1⟩ := pr
          simp only [hsw] at h
          cases h1 : foldItems ctx c1 rest with
          | error e =>
            simp only [h1] at h
            cases h
          | ok pr1 =>
            obtain ⟨tail, c2⟩ := pr1
            simp only [h1, Except.ok.injEq, Prod.mk.injEq] at h
            rw [← h.1] at hd
            rcases List.mem_append.mp hd with hmem | hmem
            · obtain ⟨nm, ws, hh, he, hitems⟩ := split_ok_elim ctx c d0 items c1 hsw
              rw [hitems] at hmem
              rcases List.mem_append.mp hmem with hm2 | hm2
              · obtain ⟨w, hw, hwd⟩ := List.mem_map.mp hm2
                unfold expand_wildcard at he
                obtain ⟨p2, hp2, rel2, hs2, hsrc2⟩ :=
                  expandPaths_ok_mem _ _ _ _ _ _ _ he w hw
                have hps : '*' ∉ p2 := hstar _ _ hp2
                have hrels : '*' ∉ rel2 := stripPrefixPath_no_star hps hs2
                have hsrcs : '*' ∉ w.import_src := by
                  rw [hsrc2]
                  exact normalizeRel_no_star hrels
                cases hwd
                exact not_wildcard_of_no_star hsrcs
              · simp only [List.mem_singleton] at hm2
                cases hm2
            · exact ih c1 tail c2 h1 d hmem
      · simp only [foldItems, if_neg hv] at h
        cases h1 : foldItems ctx c rest with
        | error e =>
          simp only [h1] at h
          cases h
        | ok pr1 =>
          obtain ⟨tail, c2⟩ := pr1
          simp only [h1, Except.ok.injEq, Prod.mk.injEq] at h
          rw [← h.1] at hd
          rcases List.mem_cons.mp hd with h2 | h2
          · have hdd : d = d0 := by
              cases h2
              rfl
            rw [hdd]
            simpa using hv
          · exact ih c tail c2 h1 d h2
    | constObjDecl nm props =>
      simp only [foldItems] at h
      cases h1 : foldItems ctx c rest with
      | error e =>
        simp only [h1] at h
        cases h
      | ok pr1 =>
        obtain ⟨tail, c2⟩ := pr1
        simp only [h1, Except.ok.injEq, Prod.mk.injEq] at h
        rw [← h.1] at hd
        rcases List.mem_cons.mp hd with h2 | h2
        · cases h2
        · exact ih c tail c2 h1 d h2
    | otherStmt tag =>
      simp only [foldItems] at h
      cases h1 : foldItems ctx c rest with
      | error e =>
        simp only [h1] at h
        cases h
      | ok pr1 =>
        obtain ⟨tail, c2⟩ := pr1
        simp only [h1, Except.ok.injEq, Prod.mk.injEq] at h
        rw [← h.1] at hd
        rcases List.mem_cons.mp hd with h2 | h2
        · cases h2
        · exact ih c tail c2 h1 d h2

/-! ### Computing `importLocals` on generated items -/

theorem importLocals_cons_import (nm src2 : Chars) (rest : List ModuleItem) :
    importLocals (ModuleItem.importDecl { specifiers := [ImportSpecifier.defaultSpec nm], src := src2 } :: rest) =
      nm :: importLocals rest := rfl

theorem importLocals_split (nm : Chars) (props : List (Chars × Chars)) : ∀ (ws : List WildcardImport),
    importLocals (ws.map (fun w => ModuleItem.importDecl
        { specifiers := [ImportSpecifier.defaultSpec w.ident_import], src := w.import_src }) ++
      [ModuleItem.constObjDecl nm props]) =
      ws.map (fun w => w.ident_import)
  | [] => rfl
  | w :: rest => by
    simp only [List.map_cons, List.cons_append, importLocals_cons_import]
    rw [importLocals_split nm props rest]

/-! ### Distinctness of identifier ranges -/

theorem range'_map_nodup (a n : Nat) : ((List.range' a n).map identChars).Nodup :=
  List.Nodup.map identChars_injective (List.nodup_range' a n)

theorem range'_append_map_nodup {a n b m : Nat} (h : a + n ≤ b) :
    ((List.range' a n).map identChars ++ (List.range' b m).map identChars).Nodup := by
  rw [← List.map_append]
  apply List.Nodup.map identChars_injective
  apply List.Nodup.append (List.nodup_range' a n) (List.nodup_range' b m)
  intro x hx1 hx2
  rw [List.mem_range'] at hx1 hx2
  obtain ⟨i, hi, hxi⟩ := hx1
  obtain ⟨j, hj, hxj⟩ := hx2
  omega

/-! ### Claims -/

/-- C7: the claim states that sanitizing `"foo-bar!!baz"` yields
`"foo_bar_baz"`; the code (and, in fact, the spec's own four steps) yield
`"foo_barbaz"`, because deleted characters leave no separator behind. -/
theorem C7_sanitizer_example_cex :
    create_valid_property_name ("foo-bar!!baz".data) ≠ ("foo_bar_baz".data) := by
  decide

/-- C7 (amended): the sanitizer maps `"foo-bar!!baz"` to `"foo_barbaz"`
(dashes become underscores, other non-word characters are deleted without
leaving a separator) and maps `"--a--"` to `"a"`. -/
theorem C7_sanitizer_examples :
    create_valid_property_name ("foo-bar!!baz".data) = ("foo_barbaz".data) ∧
    create_valid_property_name ("--a--".data) = ("a".data) := by
  decide

/-- C10: the sanitizer is idempotent: each output consists only of word
characters, has no doubled underscore and no boundary underscore, and
every such string is a fixed point of the sanitizer. -/
theorem C10_sanitizer_idempotent (l : Chars) :
    create_valid_property_name (create_valid_property_name l) = create_valid_property_name l :=
  sanitize_eq_self sanitize_output_word sanitize_output_head sanitize_output_getLast
    (sanitize_output_noDouble _)

/-- C4 is false as stated: a filesystem match whose wildcard fragment
contains a newline satisfies the spec's glob semantics, yet the regular
expression derived from the pattern fails to capture (regex `.` does not
match a newline), so the failure branch of capture extraction is reachable
for a matcher-produced path and the transform aborts. -/
theorem C4_capture_failure_cex :
    specGlobMatches (resolvedPattern ctx4 ("./*.js".data)) ("/cwd/./a\nb.js".data) = true ∧
    ("/cwd/./a\nb.js".data) ∈ ctx4.fs (resolvedPattern ctx4 ("./*.js".data)) ∧
    findCapture (splitStar ("./*.js".data)).1 (splitStar ("./*.js".data)).2
      ("/cwd/./a\nb.js".data) = none ∧
    expand_wildcard ctx4 0
      { specifiers := [ImportSpecifier.defaultSpec ("foo".data)], src := "./*.js".data } =
      .error TransformError.captureFailed := by
  decide

/-- C4 (amended): for every path matched by the (spec-modelled) glob
matcher against the resolved single-wildcard pattern, provided the path
contains no newline character, the regular expression built from
the import's source string (literal parts around one capture group, searched
anywhere in the path) succeeds, so the `unwrap` on capture extraction
cannot fail. -/
theorem C4_capture_total (ctx : Ctx) (src path : Chars)
    (hone : src.count '*' = 1)
    (hcwd : '*' ∉ ctx.cwd) (hfile : '*' ∉ ctx.fileName)
    (hmatch : specGlobMatches (resolvedPattern ctx src) path = true)
    (hnl : '\n' ∉ path) :
    ∃ v, findCapture (splitStar src).1 (splitStar src).2 path = some v := by
  obtain ⟨hsrc, hA, hB⟩ := splitStar_decomp hone
  obtain ⟨D, hD, hDstar⟩ := resolvedPattern_decomp ctx src hcwd hfile
  have hres : splitStar (resolvedPattern ctx src) =
      (D ++ (splitStar src).1, (splitStar src).2) := by
    rw [hD]
    conv_lhs => rw [hsrc]
    rw [← List.append_assoc]
    refine splitStar_of_decomp ?_
    intro hc
    rcases List.mem_append.mp hc with h | h
    · exact hDstar h
    · exact hA h
  obtain ⟨m, hm, hslash⟩ := specGlobMatches_elim hmatch
  rw [hres] at hm
  have hmnl : '\n' ∉ m := by
    intro hc
    apply hnl
    rw [hm]
    exact List.mem_append.mpr (Or.inr (List.mem_append.mpr (Or.inl hc)))
  have hshape : path = D ++ ((splitStar src).1 ++ (m ++ ((splitStar src).2 ++ []))) := by
    rw [hm]
    simp [List.append_assoc]
  have hsome := findCapture_isSome (splitStar src).1 (splitStar src).2 D m [] hmnl
  rw [← hshape] at hsome
  exact Option.isSome_iff_exists.mp hsome

/-- Witness for the amended C4 at the concrete context `ctxW` and the
matched path `/cwd/./a.js`. -/
theorem C4_capture_total_witness :
    ∃ v, findCapture (splitStar ("./*.js".data)).1 (splitStar ("./*.js".data)).2
      ("/cwd/./a.js".data) = some v :=
  C4_capture_total ctxW ("./*.js".data) ("/cwd/./a.js".data)
    (by decide) (by decide) (by decide) (by decide) (by decide)

/-- C5 is false as stated: the code inspects only the FIRST specifier, so
a wildcard import carrying a default specifier followed by a named
specifier (two specifiers, not exactly one) is expanded without error. -/
theorem C5_specifier_cex :
    d5.specifiers.length = 2 ∧
    split_wildcard_import ctxE 0 d5 = .ok ([ModuleItem.constObjDecl ("foo".data) []], 0) := by
  decide

/-- C5 (amended): a wildcard import is expanded without a specifier-shape
error iff its FIRST specifier is a default specifier; an empty specifier
list or a named/namespace first specifier aborts the transform, and any
specifiers after the first are ignored. -/
theorem C5_specifier_shapes (ctx : Ctx) (c : Nat) (d : ImportDecl) :
    (d.specifiers.head? = none →
      split_wildcard_import ctx c d = .error TransformError.noSpecifier) ∧
    (∀ nm, d.specifiers.head? = some (ImportSpecifier.namedSpec nm) →
      split_wildcard_import ctx c d = .error TransformError.unsupportedSpecifier) ∧
    (∀ nm, d.specifiers.head? = some (ImportSpecifier.namespaceSpec nm) →
      split_wildcard_import ctx c d = .error TransformError.unsupportedSpecifier) ∧
    (∀ nm, d.specifiers.head? = some (ImportSpecifier.defaultSpec nm) →
      split_wildcard_import ctx c d =
        Except.map (fun r => (r.1.map (fun w => ModuleItem.importDecl
            { specifiers := [ImportSpecifier.defaultSpec w.ident_import], src := w.import_src }) ++
          [ModuleItem.constObjDecl nm (r.1.map (fun w => (w.ident_obj, w.ident_import)))], r.2))
          (expand_wildcard ctx c d)) := by
  refine ⟨?_, ?_, ?_, ?_⟩
  · intro h
    unfold split_wildcard_import
    rw [h]
  · intro nm h
    unfold split_wildcard_import
    rw [h]
  · intro nm h
    unfold split_wildcard_import
    rw [h]
  · intro nm h
    unfold split_wildcard_import
    rw [h]
    cases he : expand_wildcard ctx c d with
    | error e => simp [Except.map]
    | ok pr =>
      obtain ⟨ws, c2⟩ := pr
      simp [Except.map]

/-- Witness for the amended C5: the three specifier shapes at concrete
inputs. -/
theorem C5_specifier_shapes_witness :
    split_wildcard_import ctxE 0 dNone = .error TransformError.noSpecifier ∧
    split_wildcard_import ctxE 0 dNamed = .error TransformError.unsupportedSpecifier ∧
    split_wildcard_import ctxE 0 d5 =
      Except.map (fun r => (r.1.map (fun w => ModuleItem.importDecl
          { specifiers := [ImportSpecifier.defaultSpec w.ident_import], src := w.import_src }) ++
        [ModuleItem.constObjDecl ("foo".data) (r.1.map (fun w => (w.ident_obj, w.ident_import)))], r.2))
        (expand_wildcard ctxE 0 d5) :=
  ⟨(C5_specifier_shapes ctxE 0 dNone).1 (by decide),
   (C5_specifier_shapes ctxE 0 dNamed).2.1 ("bar".data) (by decide),
   (C5_specifier_shapes ctxE 0 d5).2.2.2 ("foo".data) (by decide)⟩

/-- C1: when the fold reaches an import statement whose source string
contains exactly one wildcard marker and whose expansion succeeds with N
filesystem matches, that statement alone is replaced in place by exactly N
default-import statements followed by exactly one constant declaration,
the surrounding statements being transformed independently in order; N = 0
leaves only the constant declaration with an empty object literal. -/
theorem C1_expansion_shape (ctx : Ctx) (c : Nat) (pre post preOut postOut items : List ModuleItem)
    (d : ImportDecl) (c1 c2 c3 : Nat)
    (hw : is_valid_wildcard_import d = true)
    (hpre : foldItems ctx c pre = .ok (preOut, c1))
    (hd : split_wildcard_import ctx c1 d = .ok (items, c2))
    (hpost : foldItems ctx c2 post = .ok (postOut, c3)) :
    foldItems ctx c (pre ++ ModuleItem.importDecl d :: post) =
      .ok (preOut ++ (items ++ postOut), c3) ∧
    ∃ nm ws,
      d.specifiers.head? = some (ImportSpecifier.defaultSpec nm) ∧
      expand_wildcard ctx c1 d = .ok (ws, c2) ∧
      ws.length = (ctx.fs (resolvedPattern ctx d.src)).length ∧
      items =
        ws.map (fun w => ModuleItem.importDecl
          { specifiers := [ImportSpecifier.defaultSpec w.ident_import], src := w.import_src }) ++
        [ModuleItem.constObjDecl nm (ws.map (fun w => (w.ident_obj, w.ident_import)))] := by
  constructor
  · rw [foldItems_append, hpre]
    simp only [seqFold, foldItems, if_pos hw, hd, hpost]
  · obtain ⟨nm, ws, hh, he, hitems⟩ := split_ok_elim ctx c1 d items c2 hd
    refine ⟨nm, ws, hh, he, ?_, hitems⟩
    unfold expand_wildcard at he
    exact (expandPaths_ok_counter _ _ _ _ _ _ _ he).2

/-- Witness for C1: the concrete module `[other; import foo from "./*.js"; other]`
under `ctxW` expands to two imports plus the aggregating constant. -/
theorem C1_expansion_shape_witness :
    foldItems ctxW 0 ([ModuleItem.otherStmt 0] ++ ModuleItem.importDecl dW :: [ModuleItem.otherStmt 1]) =
      .ok ([ModuleItem.otherStmt 0] ++ (itemsW ++ [ModuleItem.otherStmt 1]), 2) ∧
    ∃ nm ws,
      dW.specifiers.head? = some (ImportSpecifier.defaultSpec nm) ∧
      expand_wildcard ctxW 0 dW = .ok (ws, 2) ∧
      ws.length = (ctxW.fs (resolvedPattern ctxW dW.src)).length ∧
      itemsW =
        ws.map (fun w => ModuleItem.importDecl
          { specifiers := [ImportSpecifier.defaultSpec w.ident_import], src := w.import_src }) ++
        [ModuleItem.constObjDecl nm (ws.map (fun w => (w.ident_obj, w.ident_import)))] :=
  C1_expansion_shape ctxW 0 [ModuleItem.otherStmt 0] [ModuleItem.otherStmt 1]
    [ModuleItem.otherStmt 0] [ModuleItem.otherStmt 1] itemsW dW 0 2 2
    (by decide) (by decide) (by decide) (by decide)

/-- C2: an import statement is classified (and then expanded) as a
wildcard import iff its source string contains exactly one `*`; an import
with zero or several `*` and every non-import statement is cloned
unchanged in place. -/
theorem C2_classifier_pass_through (ctx : Ctx) (c : Nat) (d : ImportDecl) (nm : Chars)
    (props : List (Chars × Chars)) (tag : Nat) (rest : List ModuleItem) :
    (is_valid_wildcard_import d = true ↔ d.src.count '*' = 1) ∧
    (d.src.count '*' ≠ 1 →
      foldItems ctx c (ModuleItem.importDecl d :: rest) =
        Except.map (fun r => (ModuleItem.importDecl d :: r.1, r.2)) (foldItems ctx c rest)) ∧
    (foldItems ctx c (ModuleItem.constObjDecl nm props :: rest) =
      Except.map (fun r => (ModuleItem.constObjDecl nm props :: r.1, r.2)) (foldItems ctx c rest)) ∧
    (foldItems ctx c (ModuleItem.otherStmt tag :: rest) =
      Except.map (fun r => (ModuleItem.otherStmt tag :: r.1, r.2)) (foldItems ctx c rest)) ∧
    (d.src.count '*' = 1 →
      ∀ items c1, split_wildcard_import ctx c d = .ok (items, c1) →
        foldItems ctx c (ModuleItem.importDecl d :: rest) =
          Except.map (fun r => (items ++ r.1, r.2)) (foldItems ctx c1 rest)) := by
  have hiff : is_valid_wildcard_import d = true ↔ d.src.count '*' = 1 := by
    simp [is_valid_wildcard_import]
  refine ⟨hiff, ?_, ?_, ?_, ?_⟩
  · intro hcount
    have hv : ¬(is_valid_wildcard_import d = true) := fun hc => hcount (hiff.mp hc)
    simp only [foldItems, if_neg hv]
    cases h1 : foldItems ctx c rest with
    | error e => simp [Except.map]
    | ok pr =>
      obtain ⟨tail, c2⟩ := pr
      simp [Except.map]
  · simp only [foldItems]
    cases h1 : foldItems ctx c rest with
    | error e => simp [Except.map]
    | ok pr =>
      obtain ⟨tail, c2⟩ := pr
      simp [Except.map]
  · simp only [foldItems]
    cases h1 : foldItems ctx c rest with
    | error e => simp [Except.map]
    | ok pr =>
      obtain ⟨tail, c2⟩ := pr
      simp [Except.map]
  · intro hcount items c1 hsw
    have hv : is_valid_wildcard_import d = true := hiff.mpr hcount
    simp only [foldItems, if_pos hv, hsw]
    cases h1 : foldItems ctx c1 rest with
    | error e => simp [Except.map]
    | ok pr =>
      obtain ⟨tail, c2⟩ := pr
      simp [Except.map]

/-- Witness for C2: a one-star import is classified, a zero-star import
passes through unchanged. -/
theorem C2_classifier_pass_through_witness :
    is_valid_wildcard_import dW = true ∧
    foldItems ctxW 0 [ModuleItem.importDecl dPlain, ModuleItem.otherStmt 7] =
      .ok ([ModuleItem.importDecl dPlain, ModuleItem.otherStmt 7], 0) := by
  constructor
  · decide
  · have h := C2_classifier_pass_through ctxW 0 dPlain ("x".data) [] 7 [ModuleItem.otherStmt 7]
    rw [h.2.1 (by decide)]
    decide

/-- C3: the generated constant declaration is bound to the original
default-import name and its object literal holds, in matcher enumeration
order, one property per match: key = sanitized captured fragment, value =
the match's synthetic identifier. -/
theorem C3_aggregating_const (ctx : Ctx) (c : Nat) (d : ImportDecl) (items : List ModuleItem)
    (c' : Nat) (nm : Chars)
    (hnm : d.specifiers.head? = some (ImportSpecifier.defaultSpec nm))
    (hs : split_wildcard_import ctx c d = .ok (items, c')) :
    ∃ ws,
      expand_wildcard ctx c d = .ok (ws, c') ∧
      items.getLast? = some (ModuleItem.constObjDecl nm (ws.map (fun w => (w.ident_obj, w.ident_import)))) ∧
      ws.length = (ctx.fs (resolvedPattern ctx d.src)).length ∧
      ∀ (i : Nat) (hp : i < (ctx.fs (resolvedPattern ctx d.src)).length) (hwi : i < ws.length),
        ∃ frag,
          findCapture (splitStar d.src).1 (splitStar d.src).2
              ((ctx.fs (resolvedPattern ctx d.src)).get ⟨i, hp⟩) = some frag ∧
          (ws.get ⟨i, hwi⟩).ident_obj = create_valid_property_name frag ∧
          (ws.get ⟨i, hwi⟩).ident_import = identChars (c + i + 1) := by
  obtain ⟨nm2, ws, hh2, he, hitems⟩ := split_ok_elim _ _ _ _ _ hs
  have hnm2 : nm2 = nm := by
    rw [hnm] at hh2
    exact (ImportSpecifier.defaultSpec.inj (Option.some.inj hh2)).symm
  subst hnm2
  refine ⟨ws, he, ?_, ?_, ?_⟩
  · rw [hitems, List.getLast?_concat]
  · unfold expand_wildcard at he
    exact (expandPaths_ok_counter _ _ _ _ _ _ _ he).2
  · intro i hp hwi
    unfold expand_wildcard at he
    obtain ⟨frag, rel, hf, hsp, hget⟩ := expandPaths_ok_get _ _ _ _ _ _ _ he i hp hwi
    exact ⟨frag, hf, by rw [hget], by rw [hget]⟩

/-- Witness for C3 at `ctxW`: the constant is `const foo = ...` with keys
`a`, `b` and synthetic identifier values. -/
theorem C3_aggregating_const_witness :
    ∃ ws,
      expand_wildcard ctxW 0 dW = .ok (ws, 2) ∧
      itemsW.getLast? = some (ModuleItem.constObjDecl ("foo".data)
        (ws.map (fun w => (w.ident_obj, w.ident_import)))) ∧
      ws.length = (ctxW.fs (resolvedPattern ctxW dW.src)).length ∧
      ∀ (i : Nat) (hp : i < (ctxW.fs (resolvedPattern ctxW dW.src)).length) (hwi : i < ws.length),
        ∃ frag,
          findCapture (splitStar dW.src).1 (splitStar dW.src).2
              ((ctxW.fs (resolvedPattern ctxW dW.src)).get ⟨i, hp⟩) = some frag ∧
          (ws.get ⟨i, hwi⟩).ident_obj = create_valid_property_name frag ∧
          (ws.get ⟨i, hwi⟩).ident_import = identChars (0 + i + 1) :=
  C3_aggregating_const ctxW 0 dW itemsW 2 ("foo".data) (by decide) (by decide)

/-- C8: every generated default-import's source string is the match's path
relative to the importing file's directory (`strip_prefix` against
`cwd.join(file_name.parent())`), prefixed by `./` whenever it does not
already start with `.`; in particular it always starts with `.`. -/
theorem C8_relative_import_src (ctx : Ctx) (c : Nat) (d : ImportDecl) (ws : List WildcardImport)
    (c' : Nat)
    (hexp : expand_wildcard ctx c d = .ok (ws, c')) :
    ∀ (i : Nat) (hp : i < (ctx.fs (resolvedPattern ctx d.src)).length) (hwi : i < ws.length),
      ∃ rel,
        stripPrefixPath (importerDir ctx) ((ctx.fs (resolvedPattern ctx d.src)).get ⟨i, hp⟩) = some rel ∧
        (ws.get ⟨i, hwi⟩).import_src = normalizeRel rel ∧
        ((ws.get ⟨i, hwi⟩).import_src).head? = some '.' := by
  unfold expand_wildcard at hexp
  intro i hp hwi
  obtain ⟨frag, rel, hf, hsp, hget⟩ := expandPaths_ok_get _ _ _ _ _ _ _ hexp i hp hwi
  refine ⟨rel, hsp, by rw [hget], ?_⟩
  rw [hget]
  show (normalizeRel rel).head? = some '.'
  unfold normalizeRel
  by_cases hh : rel.head? = some '.'
  · rw [if_pos hh]
    exact hh
  · rw [if_neg hh]
    rfl

/-- Witness for C8 at `ctxW`: the first match `/cwd/./a.js` is
relativized to `a.js` and normalized to `./a.js`. -/
theorem C8_relative_import_src_witness :
    ∃ rel,
      stripPrefixPath (importerDir ctxW) ((ctxW.fs (resolvedPattern ctxW dW.src)).get ⟨0, by decide⟩) = some rel ∧
      (wsW.get ⟨0, by decide⟩).import_src = normalizeRel rel ∧
      ((wsW.get ⟨0, by decide⟩).import_src).head? = some '.' :=
  C8_relative_import_src ctxW 0 dW wsW 2 (by decide) 0 (by decide) (by decide)

/-! ### Inversion helpers for C6 and C9 -/

theorem seqFold_ok_elim {r1 : Except TransformError (List ModuleItem × Nat)}
    {f : Nat → Except TransformError (List ModuleItem × Nat)}
    {out : List ModuleItem} {c' : Nat}
    (h : seqFold r1 f = .ok (out, c')) :
    ∃ a c1 b, r1 = .ok (a, c1) ∧ f c1 = .ok (b, c') ∧ out = a ++ b := by
  unfold seqFold at h
  cases r1 with
  | error e => cases h
  | ok pr =>
    obtain ⟨a, c1⟩ := pr
    cases hf : f c1 with
    | error e =>
      simp only [hf] at h
      cases h
    | ok pr2 =>
      obtain ⟨b, c2⟩ := pr2
      simp only [hf, Except.ok.injEq, Prod.mk.injEq] at h
      exact ⟨a, c1, b, rfl, by rw [hf, h.2], h.1.symm⟩

theorem foldItems_cons_wildcard_elim {ctx : Ctx} {c : Nat} {d : ImportDecl}
    {rest out : List ModuleItem} {c' : Nat}
    (hw : is_valid_wildcard_import d = true)
    (h : foldItems ctx c (ModuleItem.importDecl d :: rest) = .ok (out, c')) :
    ∃ items c1 tail, split_wildcard_import ctx c d = .ok (items, c1) ∧
      foldItems ctx c1 rest = .ok (tail, c') ∧ out = items ++ tail := by
  simp only [foldItems, if_pos hw] at h
  cases hsw : split_wildcard_import ctx c d with
  | error e =>
    simp only [hsw] at h
    cases h
  | ok pr =>
    obtain ⟨items, c1⟩ := pr
    simp only [hsw] at h
    cases h1 : foldItems ctx c1 rest with
    | error e =>
      simp only [h1] at h
      cases h
    | ok pr1 =>
      obtain ⟨tail, c2⟩ := pr1
      simp only [h1, Except.ok.injEq, Prod.mk.injEq] at h
      exact ⟨items, c1, tail, rfl, by rw [h1, h.2], h.1.symm⟩

/-- C6: in one successful module transform containing two wildcard imports,
each expansion binds its imports to the synthetic identifiers
`$_import_<k>` for the consecutive counter values following its start, the
counter only ever grows (it is threaded, never reset), the first expansion
of a run starts at counter 0 so its first identifier is `$_import_1`, and
the identifiers of the two expansions are pairwise distinct. -/
theorem C6_synthetic_idents (ctx : Ctx) (pre mid post out : List ModuleItem)
    (d1 d2 : ImportDecl) (cfin : Nat)
    (hw1 : is_valid_wildcard_import d1 = true)
    (hw2 : is_valid_wildcard_import d2 = true)
    (hrun : foldItems ctx 0
      (pre ++ ModuleItem.importDecl d1 :: (mid ++ ModuleItem.importDecl d2 :: post)) =
      .ok (out, cfin)) :
    ∃ c1 items1 c2 c3 items2 c4,
      split_wildcard_import ctx c1 d1 = .ok (items1, c2) ∧
      split_wildcard_import ctx c3 d2 = .ok (items2, c4) ∧
      c2 = c1 + (ctx.fs (resolvedPattern ctx d1.src)).length ∧
      c4 = c3 + (ctx.fs (resolvedPattern ctx d2.src)).length ∧
      c2 ≤ c3 ∧
      importLocals items1 =
        (List.range' (c1 + 1) ((ctx.fs (resolvedPattern ctx d1.src)).length)).map identChars ∧
      importLocals items2 =
        (List.range' (c3 + 1) ((ctx.fs (resolvedPattern ctx d2.src)).length)).map identChars ∧
      (importLocals items1 ++ importLocals items2).Nodup := by
  rw [foldItems_append] at hrun
  obtain ⟨o1, c1, b1, hpre, hrest, hout⟩ := seqFold_ok_elim hrun
  obtain ⟨items1, c2, tail1, hs1, hrest2, hout1⟩ := foldItems_cons_wildcard_elim hw1 hrest
  rw [foldItems_append] at hrest2
  obtain ⟨o2, c3, b2, hmid, hrest3, hout2⟩ := seqFold_ok_elim hrest2
  obtain ⟨items2, c4, tail2, hs2, hrest4, hout3⟩ := foldItems_cons_wildcard_elim hw2 hrest3
  have hmono : c2 ≤ c3 := foldItems_mono ctx mid c2 o2 c3 hmid
  obtain ⟨nm1, ws1, hh1, he1, hit1⟩ := split_ok_elim _ _ _ _ _ hs1
  obtain ⟨nm2, ws2, hh2, he2, hit2⟩ := split_ok_elim _ _ _ _ _ hs2
  unfold expand_wildcard at he1 he2
  have hcnt1 := expandPaths_ok_counter _ _ _ _ _ _ _ he1
  have hcnt2 := expandPaths_ok_counter _ _ _ _ _ _ _ he2
  have hid1 := expandPaths_ok_idents _ _ _ _ _ _ _ he1
  have hid2 := expandPaths_ok_idents _ _ _ _ _ _ _ he2
  have hl1 : importLocals items1 = ws1.map (fun w => w.ident_import) := by
    rw [hit1]
    exact importLocals_split _ _ _
  have hl2 : importLocals items2 = ws2.map (fun w => w.ident_import) := by
    rw [hit2]
    exact importLocals_split _ _ _
  refine ⟨c1, items1, c2, c3, items2, c4, hs1, hs2, hcnt1.1, hcnt2.1, hmono, ?_, ?_, ?_⟩
  · rw [hl1, hid1]
  · rw [hl2, hid2]
  · rw [hl1, hid1, hl2, hid2]
    apply range'_append_map_nodup
    omega

/-- Witness for C6: the module `[import foo from "./*.js"; import bar from
"./*.css"]` under `ctx6` allocates `$_import_1` then `$_import_2`. -/
theorem C6_synthetic_idents_witness :
    ∃ c1 items1 c2 c3 items2 c4,
      split_wildcard_import ctx6 c1 dW = .ok (items1, c2) ∧
      split_wildcard_import ctx6 c3 d6 = .ok (items2, c4) ∧
      c2 = c1 + (ctx6.fs (resolvedPattern ctx6 dW.src)).length ∧
      c4 = c3 + (ctx6.fs (resolvedPattern ctx6 d6.src)).length ∧
      c2 ≤ c3 ∧
      importLocals items1 =
        (List.range' (c1 + 1) ((ctx6.fs (resolvedPattern ctx6 dW.src)).length)).map identChars ∧
      importLocals items2 =
        (List.range' (c3 + 1) ((ctx6.fs (resolvedPattern ctx6 d6.src)).length)).map identChars ∧
      (importLocals items1 ++ importLocals items2).Nodup :=
  C6_synthetic_idents ctx6 [] [] []
    [ModuleItem.importDecl { specifiers := [ImportSpecifier.defaultSpec ("$_import_1".data)], src := "./a.js".data },
     ModuleItem.constObjDecl ("foo".data) [(("a".data), ("$_import_1".data))],
     ModuleItem.importDecl { specifiers := [ImportSpecifier.defaultSpec ("$_import_2".data)], src := "./b.css".data },
     ModuleItem.constObjDecl ("bar".data) [(("b".data), ("$_import_2".data))]]
    dW d6 2 (by decide) (by decide) (by decide)

/-- C9 is false as stated: when a matched file's name itself contains a
`*` (file `a*.js`), the expanded output contains the import
`import $_import_1 from "./a*.js"`, which is classified as a
wildcard import again, and a second transform run expands it instead of being a
no-op. -/
theorem C9_not_idempotent_cex :
    fold_module ctx9 { body := [ModuleItem.importDecl dW] } =
      .ok { body := [ModuleItem.importDecl
          { specifiers := [ImportSpecifier.defaultSpec ("$_import_1".data)], src := "./a*.js".data },
        ModuleItem.constObjDecl ("foo".data) [(("a".data), ("$_import_1".data))]] } ∧
    is_valid_wildcard_import
      { specifiers := [ImportSpecifier.defaultSpec ("$_import_1".data)], src := "./a*.js".data } = true ∧
    fold_module ctx9 { body := [ModuleItem.importDecl
          { specifiers := [ImportSpecifier.defaultSpec ("$_import_1".data)], src := "./a*.js".data },
        ModuleItem.constObjDecl ("foo".data) [(("a".data), ("$_import_1".data))]] } ≠
      .ok { body := [ModuleItem.importDecl
          { specifiers := [ImportSpecifier.defaultSpec ("$_import_1".data)], src := "./a*.js".data },
        ModuleItem.constObjDecl ("foo".data) [(("a".data), ("$_import_1".data))]] } := by
  refine ⟨by decide, by decide, ?_⟩
  decide

/-- C9 (amended): provided no path the filesystem matcher ever returns
contains a `*` (in particular when no file name contains `*`), a fully
expanded module contains no statement classified as a wildcard import, so
running the transform a second time on it is a no-op. -/
theorem C9_idempotent_no_star (ctx : Ctx) (m m' : Module)
    (hstar : ∀ pat p, p ∈ ctx.fs pat → '*' ∉ p)
    (h1 : fold_module ctx m = .ok m') :
    fold_module ctx m' = .ok m' := by
  unfold fold_module at h1 ⊢
  cases hf : foldItems ctx 0 m.body with
  | error e =>
    simp only [hf] at h1
    cases h1
  | ok pr =>
    obtain ⟨b, cfin⟩ := pr
    simp only [hf, Except.ok.injEq] at h1
    have hno := foldItems_out_no_wildcard ctx hstar m.body 0 b cfin hf
    have hid := foldItems_id_of_no_wildcard ctx b 0 (fun d hd => hno d hd)
    have hbody : m'.body = b := by
      rw [← h1]
    rw [hbody, hid]
    rw [← h1]

/-- Witness for the amended C9: under the star-free filesystem of `ctxW`,
a second run on the expanded module returns it unchanged. -/
theorem C9_idempotent_no_star_witness :
    fold_module ctxW { body := [ModuleItem.importDecl dW] } = .ok { body := itemsW } ∧
    fold_module ctxW { body := itemsW } = .ok { body := itemsW } := by
  have hstar : ∀ pat p, p ∈ ctxW.fs pat → '*' ∉ p := by
    intro pat p hp
    simp only [ctxW] at hp
    by_cases h : pat = ("/cwd/./*.js".data)
    · rw [if_pos h] at hp
      rcases List.mem_cons.mp hp with h1 | h1
      · subst h1
        decide
      · rcases List.mem_cons.mp h1 with h2 | h2
        · subst h2
          decide
        · simp at h2
    · rw [if_neg h] at hp
      simp at hp
  have h1 : fold_module ctxW { body := [ModuleItem.importDecl dW] } = .ok { body := itemsW } := by
    decide
  exact ⟨h1, C9_idempotent_no_star ctxW _ _ hstar h1⟩

end GlobImport
